import Mathlib

/-!
# Verification of the piracer π engine

Shallow embedding of the piracer repository's core π pipeline:

* `src/src/alg/pi/bsplit.cpp` — Chudnovsky leaves, the binary-splitting
  evaluator (plain and progress-reporting), the chunked "parallel" variant,
  and the planner/assembler in `compute_pi_impl` / `compute_pi_base_impl` /
  `compute_pi_base_threaded_impl`;
* `src/src/core/format.cpp` — `mpfr_to_fixed_decimal`;
* `src/unnamed/part_016` — `self_test`.

Conventions of the embedding:

* GMP integers (`mpz_class`) become `ℤ`; the `long` range bounds of the
  evaluator become `ℕ` (every call site uses `[0, n)` with `n ≥ 1`).
* The C++ double expressions of the precision planner are modelled as exact
  rational arithmetic on the same decimal literals (the literals are kept to
  full precision as scaled integers).
* MPFR numbers are modelled as exact dyadic values `num · 2^exp` and each
  MPFR operation as the correctly rounded (round-to-nearest, ties-to-even)
  result at the target bit precision, which is MPFR's documented `MPFR_RNDN`
  semantics.  All of this is executable.
* `mpfr_const_pi`, an external-library constant, is modelled as the correctly
  rounded value of the real number π (necessarily non-executable).
* Recursive C++ functions and loops are defined through an explicit fuel
  argument so that all definitions compute by kernel reduction; the fuel
  passed at the wrappers is always sufficient, which the unfolding lemmas
  below establish.
-/

namespace PiRacer

/-! ## Chudnovsky constants (bsplit.cpp, anonymous namespace) -/

/-- `const mpz_class A = 13591409;` -/
def A : ℤ := 13591409

/-- `const mpz_class B = 545140134;` -/
def B : ℤ := 545140134

/-- `const mpz_class C3_OVER_24 = mpz_class(640320) * 640320 * 640320 / 24;`
(exact integer division). -/
def C3_OVER_24 : ℤ := 640320 * 640320 * 640320 / 24

/-- `struct BSplitTriplet { mpz_class P; mpz_class Q; mpz_class T; };` -/
structure BSplitTriplet where
  P : ℤ
  Q : ℤ
  T : ℤ
deriving DecidableEq, Repr

/-- The leaf computation of `bsplit.cpp`:

```
inline BSplitTriplet leaf(long a) {
    if (a == 0) return BSplitTriplet{ mpz_class{1}, mpz_class{1}, A };
    mpz_class az; mpz_set_si(az.get_mpz_t(), a);
    mpz_class P = (6 * az - 5) * (2 * az - 1) * (6 * az - 1);
    mpz_class Q = az * az * az; Q *= C3_OVER_24;
    mpz_class T = P * (A + B * az);
    if (a & 1) T = -T;
    return BSplitTriplet{P, Q, T};
}
``` -/
def leaf (a : ℕ) : BSplitTriplet :=
  if a = 0 then ⟨1, 1, A⟩
  else
    let az : ℤ := a
    let P := (6 * az - 5) * (2 * az - 1) * (6 * az - 1)
    let Q := az * az * az * C3_OVER_24
    let T := P * (A + B * az)
    ⟨P, Q, if a % 2 = 1 then -T else T⟩

/-- The divide-and-conquer combination used by `bsplit_impl`:
`{ L.P * R.P, L.Q * R.Q, L.T * R.Q + L.P * R.T }`. -/
def mergeTriplet (L R : BSplitTriplet) : BSplitTriplet :=
  ⟨L.P * R.P, L.Q * R.Q, L.T * R.Q + L.P * R.T⟩

/-- Fuel-indexed version of the recursion of `bsplit_impl(long a, long b)`.
Any fuel `≥ b - a` yields the value of the C++ recursion (see
`bsplitCore_congr`); with insufficient fuel a junk value is returned
(the C++ function does not terminate when called with `b ≤ a`, a situation
no call site produces). -/
def bsplitCore : ℕ → ℕ → ℕ → BSplitTriplet
  | 0, _, _ => ⟨1, 1, 0⟩
  | fuel + 1, a, b =>
    if b - a = 1 then leaf a
    else
      let m := (a + b) / 2
      mergeTriplet (bsplitCore fuel a m) (bsplitCore fuel m b)

/-- `BSplitTriplet bsplit_chudnovsky(long a, long b)` (via `bsplit_impl`). -/
def bsplit_chudnovsky (a b : ℕ) : BSplitTriplet := bsplitCore (b - a) a b

/-- `struct Progress` of `include/piracer/progress.hpp`; the `tick` callback
together with its opaque `user` pointer is modelled by recording every
invocation `(done, total)` in order. -/
structure Progress where
  total : ℕ
  done : ℕ
  ticks : List (ℕ × ℕ)
deriving DecidableEq, Repr

/-- Fuel-indexed version of the reporting `bsplit_impl(long a, long b,
Progress* prog)` for a non-null `prog`: at each leaf the code executes
`++prog->done; if (prog->tick) prog->tick(prog->done, prog->total, prog->user);`. -/
def bsplitProgCore : ℕ → ℕ → ℕ → Progress → BSplitTriplet × Progress
  | 0, _, _, prog => (⟨1, 1, 0⟩, prog)
  | fuel + 1, a, b, prog =>
    if b - a = 1 then
      let x := leaf a
      let d := prog.done + 1
      (x, ⟨prog.total, d, prog.ticks ++ [(d, prog.total)]⟩)
    else
      let m := (a + b) / 2
      let L := bsplitProgCore fuel a m prog
      let R := bsplitProgCore fuel m b L.2
      (mergeTriplet L.1 R.1, R.2)

/-- `BSplitTriplet bsplit_chudnovsky(long a, long b, Progress* prog)` with a
non-null progress sink. -/
def bsplit_chudnovsky_prog (a b : ℕ) (prog : Progress) : BSplitTriplet × Progress :=
  bsplitProgCore (b - a) a b prog

/-- One iteration body of the chunk loop of `bsplit_chudnovsky_parallel`
(src/unnamed/part_012).  Faithful to the statement order of the source:

```
result.P *= chunk.P;
result.Q *= chunk.Q;
result.T = result.T * chunk.Q + result.P * chunk.T;
```

so the `T` update reads the value of `result.P` that has already been
multiplied by `chunk.P`. -/
def chunkCombine (result chunk : BSplitTriplet) : BSplitTriplet :=
  ⟨result.P * chunk.P, result.Q * chunk.Q,
    result.T * chunk.Q + (result.P * chunk.P) * chunk.T⟩

/-- Fuel-indexed chunk loop
`for (long chunk_start = a; chunk_start < b; chunk_start += chunk_size)` of
`bsplit_chudnovsky_parallel`; each chunk `[chunk_start, min(chunk_start +
chunk_size, b))` is evaluated by the sequential evaluator and folded in with
`chunkCombine`.  `chunk_size ≥ 1` always holds at the call site, so fuel
`b - a` covers every iteration. -/
def parLoopCore : ℕ → ℕ → ℕ → ℕ → BSplitTriplet → BSplitTriplet
  | 0, _, _, _, acc => acc
  | fuel + 1, pos, b, cs, acc =>
    if pos < b then
      let ce := min (pos + cs) b
      parLoopCore fuel (pos + cs) b cs (chunkCombine acc (bsplit_chudnovsky pos ce))
    else acc

/-- `BSplitTriplet bsplit_chudnovsky_parallel(long a, long b, int num_threads,
Progress* prog)` of src/unnamed/part_012 with a null progress sink (the sink
does not influence the returned triplet): fall back to the sequential
evaluator for `num_threads <= 1`, otherwise run the chunk loop with
`chunk_size = max(1, (b - a) / num_threads)` starting from the accumulator
`{1, 1, 0}`.  The constructed `ParallelScheduler` is unused by the loop and
is omitted. -/
def bsplit_chudnovsky_parallel (a b : ℕ) (num_threads : ℤ) : BSplitTriplet :=
  if num_threads ≤ 1 then bsplit_chudnovsky a b
  else
    let cs := max 1 ((b - a) / num_threads.toNat)
    parLoopCore (b - a) a b cs ⟨1, 1, 0⟩

/-! ## Precision planner (compute_pi_impl / compute_pi_base_impl)

The C++ computes, in `double` arithmetic,
`prec_bits = (long)(digits * 3.3219280948873626 + 64)` and
`n = (long)ceil(digits / 14.181647462725477) + 1`
(for base 16 the factor is `4.0`).  The embedding evaluates the same decimal
literals exactly: the literal `3.3219280948873626` is the scaled integer
`33219280948873626 / 10^16` and `14.181647462725477` is
`14181647462725477 / 10^15`; truncation of the nonnegative `double` by the
cast is the floor, computed below by natural division. -/

/-- `digits * 3.3219280948873626 + 64` truncated to `long`, exactly:
`⌊digits · 33219280948873626 / 10^16⌋ + 64`. -/
def prec_bits_dec (digits : ℕ) : ℕ :=
  digits * 33219280948873626 / 10 ^ 16 + 64

/-- `digits * (base == 16 ? 4.0 : 3.3219280948873626) + 64` truncated to
`long`, exactly. -/
def prec_bits_base (digits : ℕ) (base : ℤ) : ℕ :=
  if base = 16 then 4 * digits + 64 else prec_bits_dec digits

/-- `(long)(std::ceil(digits / digits_per_term())) + 1`, exactly:
`⌈digits · 10^15 / 14181647462725477⌉ + 1`. -/
def n_terms (digits : ℕ) : ℕ :=
  (digits * 10 ^ 15 + (14181647462725477 - 1)) / 14181647462725477 + 1

/-! ## MPFR model

An MPFR number at precision `p` holds a value `m · 2^e` with `|m| < 2^p`.
We model values exactly as dyadics and every operation with rounding mode
`MPFR_RNDN` as the mathematically correct round-to-nearest (ties-to-even)
result at the target precision.  The representation below is not kept
normalised; the rounding functions depend only on the represented value. -/

/-- An MPFR value: `num · 2^exp`; `num = 0` encodes zero. -/
structure MPFRFloat where
  num : ℤ
  exp : ℤ
deriving DecidableEq, Repr

/-- Fuel-indexed bit length: `bitLenCore fuel n` is the number of binary
digits of `n`, provided `fuel ≥ n`. -/
def bitLenCore : ℕ → ℕ → ℕ
  | 0, _ => 0
  | fuel + 1, n => if n = 0 then 0 else bitLenCore fuel (n / 2) + 1

/-- Number of binary digits of `n` (`0` for `n = 0`). -/
def bitLen (n : ℕ) : ℕ := bitLenCore n n

/-- Fuel-indexed bitwise integer square root: builds `⌊√n⌋` one bit at a
time from the most significant candidate bit `2^(fuel-1)` down. -/
def isqrtCore : ℕ → ℕ → ℕ → ℕ
  | 0, _, acc => acc
  | fuel + 1, n, acc =>
    let c := acc + 2 ^ fuel
    if c * c ≤ n then isqrtCore fuel n c else isqrtCore fuel n acc

/-- `⌊√n⌋`.  `bitLen n / 2 + 1` candidate bits suffice since
`⌊√n⌋ < 2^(bitLen n / 2 + 1)`. -/
def isqrt (n : ℕ) : ℕ := isqrtCore (bitLen n / 2 + 1) n 0

/-- Round-to-nearest (ties-to-even) of the rational `x / y` (`y ≥ 1`) to an
integer. -/
def roundDivHalfEven (x y : ℕ) : ℕ :=
  let q := x / y
  let r := x % y
  if y < 2 * r then q + 1
  else if 2 * r < y then q
  else if q % 2 = 0 then q else q + 1

/-- Round the positive integer mantissa `m` to at most `p` significant bits,
round-to-nearest ties-to-even; result `(m', s)` represents `m' · 2^s`. -/
def roundNatPrec (p m : ℕ) : ℕ × ℕ :=
  let L := bitLen m
  if L ≤ p then (m, 0)
  else
    let s := L - p
    (roundDivHalfEven m (2 ^ s), s)

/-- Round a dyadic to `p` significant bits (`MPFR_RNDN`). -/
def roundDyadic (p : ℕ) (x : MPFRFloat) : MPFRFloat :=
  if x.num = 0 then ⟨0, 0⟩
  else
    let mr := roundNatPrec p x.num.natAbs
    ⟨(if 0 ≤ x.num then (mr.1 : ℤ) else -(mr.1 : ℤ)), x.exp + mr.2⟩

/-- Decide `n / d ≥ 2^c` for naturals `n, d ≥ 1` and an integer `c`. -/
def ratGePow2 (n d : ℕ) (c : ℤ) : Bool :=
  if 0 ≤ c then d * 2 ^ c.toNat ≤ n else d ≤ n * 2 ^ (-c).toNat

/-- Round the positive rational `n / d` (`n, d ≥ 1`) to `p` significant
bits; result `(m, e)` represents `m · 2^(e - p)` with
`2^(e-1) ≤ n/d < 2^e`. -/
def roundRatPrec (p n d : ℕ) : ℕ × ℤ :=
  let c : ℤ := (bitLen n : ℤ) - (bitLen d : ℤ)
  let e : ℤ := if ratGePow2 n d c then c + 1 else c
  let t : ℤ := (p : ℤ) - e
  let m :=
    if 0 ≤ t then roundDivHalfEven (n * 2 ^ t.toNat) d
    else roundDivHalfEven n (d * 2 ^ (-t).toNat)
  (m, e - p)

/-- `mpfr_set_ui(x, u, MPFR_RNDN)` at precision `p`. -/
def mpfr_set_ui (p : ℕ) (u : ℕ) : MPFRFloat := roundDyadic p ⟨u, 0⟩

/-- `mpfr_set_z(x, z, MPFR_RNDN)` at precision `p`. -/
def mpfr_set_z (p : ℕ) (z : ℤ) : MPFRFloat := roundDyadic p ⟨z, 0⟩

/-- `mpfr_mul(z, x, y, MPFR_RNDN)` at precision `p`: exact product, then
round. -/
def mpfr_mul (p : ℕ) (x y : MPFRFloat) : MPFRFloat :=
  roundDyadic p ⟨x.num * y.num, x.exp + y.exp⟩

/-- `mpfr_mul_ui(z, x, u, MPFR_RNDN)` at precision `p`. -/
def mpfr_mul_ui (p : ℕ) (x : MPFRFloat) (u : ℕ) : MPFRFloat :=
  roundDyadic p ⟨x.num * u, x.exp⟩

/-- `mpfr_div(z, x, y, MPFR_RNDN)` at precision `p`.  Division by zero gives
an infinity in MPFR; the model returns a junk zero there — the safety claim
shows the pipeline never reaches that branch. -/
def mpfr_div (p : ℕ) (x y : MPFRFloat) : MPFRFloat :=
  if y.num = 0 then ⟨0, 0⟩
  else if x.num = 0 then ⟨0, 0⟩
  else
    let mr := roundRatPrec p x.num.natAbs y.num.natAbs
    let sgn := decide (0 ≤ x.num) = decide (0 ≤ y.num)
    ⟨(if sgn then (mr.1 : ℤ) else -(mr.1 : ℤ)), mr.2 + x.exp - y.exp⟩

/-- Round-to-nearest of `√Y` for `Y ≥ 1`; a tie `√Y = s + 1/2` is impossible
because `4Y = (2s+1)^2` equates an even and an odd number. -/
def sqrtRoundNat (Y : ℕ) : ℕ :=
  let s := isqrt Y
  if 4 * Y < (2 * s + 1) ^ 2 then s else s + 1

/-- `mpfr_sqrt(z, x, MPFR_RNDN)` at precision `p` for `x ≥ 0` (a negative
argument yields NaN in MPFR; the model returns junk zero there, and the
pipeline only takes square roots of `10005`).  Writing the value as
`M · 2^(2g + r)` with `r ∈ {0,1}`, the root is `√(M · 2^r) · 2^g`,
rounded to `p` bits. -/
def mpfr_sqrt (p : ℕ) (x : MPFRFloat) : MPFRFloat :=
  if x.num ≤ 0 then ⟨0, 0⟩
  else
    let M := x.num.natAbs
    let r := (x.exp % 2).toNat
    let g := (x.exp - (x.exp % 2)) / 2
    let Nn := M * 2 ^ r
    let e := bitLen (isqrt Nn)
    if e ≤ p then
      ⟨(sqrtRoundNat (Nn * 4 ^ (p - e)) : ℤ), g + e - p⟩
    else
      let u := e - p
      let s1 := isqrt (Nn / 4 ^ u)
      let cmp := (2 * s1 + 1) ^ 2 * 4 ^ (u - 1)
      let m := if Nn < cmp then s1
               else if cmp < Nn then s1 + 1
               else if s1 % 2 = 0 then s1 else s1 + 1
      ⟨(m : ℤ), g + e - p⟩

/-! ## Decimal digit strings and `mpfr_get_str` -/

/-- Fuel-indexed decimal digit emitter (most significant digit first). -/
def natToDigitsCore : ℕ → ℕ → List Char → List Char
  | 0, _, acc => acc
  | fuel + 1, n, acc =>
    if n = 0 then acc
    else natToDigitsCore fuel (n / 10) (Char.ofNat (48 + n % 10) :: acc)

/-- Decimal digit characters of `n` (`"0"` for zero). -/
def natToDigits (n : ℕ) : List Char :=
  if n = 0 then ['0'] else natToDigitsCore n n []

/-- Decide `M · 2^E ≥ 1` for `M ≥ 1`. -/
def dyadicGeOne (M : ℕ) (E : ℤ) : Bool :=
  if 0 ≤ E then true else 2 ^ (-E).toNat ≤ M

/-- `⌊M · 2^E⌋` for `M ≥ 1`. -/
def dyadicFloor (M : ℕ) (E : ℤ) : ℕ :=
  if 0 ≤ E then M * 2 ^ E.toNat else M / 2 ^ (-E).toNat

/-- Fuel-indexed search for the least `k` with `M · 10^k · 2^E ≥ 1`; fuel
`(-E).toNat + 1` suffices because `10^k ≥ 2^k`. -/
def findScaleCore : ℕ → ℕ → ℕ → ℤ → ℕ
  | 0, k, _, _ => k
  | fuel + 1, k, M, E =>
    if dyadicGeOne M E then k else findScaleCore fuel (k + 1) (M * 10) E

/-- The exact rational `M · 2^E · 10^t` as a numerator/denominator pair. -/
def dyadicTimesPow10 (M : ℕ) (E t : ℤ) : ℕ × ℕ :=
  (M * (if 0 ≤ E then 2 ^ E.toNat else 1) * (if 0 ≤ t then 10 ^ t.toNat else 1),
   (if E < 0 then 2 ^ (-E).toNat else 1) * (if t < 0 then 10 ^ (-t).toNat else 1))

/-- `mpfr_get_str(nullptr, &expo, 10, nd, v, MPFR_RNDN)`: the correctly
rounded `nd`-digit decimal mantissa of `v` together with its sign and the
decimal exponent `expo` (value `= ± 0.mantissa · 10^expo`).  For zero MPFR
produces a string of `nd` zeros and `expo = 0`. -/
def mpfr_get_str_dec (nd : ℕ) (v : MPFRFloat) : Bool × List Char × ℤ :=
  if v.num = 0 then (false, List.replicate nd '0', 0)
  else
    let neg := v.num < 0
    let M := v.num.natAbs
    let E := v.exp
    let expo : ℤ :=
      if dyadicGeOne M E then (natToDigits (dyadicFloor M E)).length
      else 1 - findScaleCore ((-E).toNat + 1) 0 M E
    let xy := dyadicTimesPow10 M E ((nd : ℤ) - expo)
    let m0 := roundDivHalfEven xy.1 xy.2
    let mexpo := if m0 = 10 ^ nd then (10 ^ (nd - 1), expo + 1) else (m0, expo)
    let ds := natToDigits mexpo.1
    (neg, List.replicate (nd - ds.length) '0' ++ ds, mexpo.2)

/-! ## The fixed-point formatter (src/src/core/format.cpp) -/

/-- The trailing block of `mpfr_to_fixed_decimal` (comment in the source:
enforce exactly `digits` decimals):

```
auto pos = out.find('.');
if (pos == std::string::npos) { out += "."; pos = out.size() - 1; }
std::size_t have = out.size() - pos - 1;
if (have < digits) out.append(digits - have, '0');
if (have > digits) out.erase(pos + 1 + digits);
``` -/
def enforceDigits (out0 : List Char) (digits : ℕ) : List Char :=
  let po : ℕ × List Char :=
    match out0.findIdx? (· = '.') with
    | some p => (p, out0)
    | none => (out0.length, out0 ++ ['.'])
  let pos := po.1
  let out1 := po.2
  let hv := out1.length - pos - 1
  if hv < digits then out1 ++ List.replicate (digits - hv) '0'
  else if digits < hv then out1.take (pos + 1 + digits)
  else out1

/-- `std::string mpfr_to_fixed_decimal(const mpfr_t v, std::size_t digits)`,
transliterated branch by branch; the C string from `mpfr_get_str` is the
optional `'-'` plus the mantissa `mant`. -/
def mpfr_to_fixed_decimal (v : MPFRFloat) (digits : ℕ) : String :=
  let gs := mpfr_get_str_dec (digits + 2) v
  let neg := gs.1
  let mant := gs.2.1
  let expo := gs.2.2
  let sign : List Char := if neg then ['-'] else []
  let body : List Char :=
    if expo ≤ 0 then
      '0' :: '.' :: (List.replicate (-expo).toNat '0' ++ mant)
    else
      let len := mant.length
      if (len : ℤ) ≤ expo then
        mant ++ List.replicate (expo.toNat - len) '0' ++ ['.']
      else
        mant.take expo.toNat ++
          '.' :: (mant.drop expo.toNat).take ((min (len : ℤ) (expo + digits)).toNat - expo.toNat)
  String.mk (enforceDigits (sign ++ body) digits)

/-- Lowercase hexadecimal digit characters of `n` (`"0"` for zero),
emitted by the fuel-indexed loop `natToHexDigitsCore`. -/
def natToHexDigitsCore : ℕ → ℕ → List Char → List Char
  | 0, _, acc => acc
  | fuel + 1, n, acc =>
    if n = 0 then acc
    else natToHexDigitsCore fuel (n / 16)
      (Char.ofNat (if n % 16 < 10 then 48 + n % 16 else 87 + n % 16) :: acc)

/-- Lowercase hexadecimal digit characters of `n`. -/
def natToHexDigits (n : ℕ) : List Char :=
  if n = 0 then ['0'] else natToHexDigitsCore n n []

/-- Least `k` with `M · 16^k · 2^E ≥ 1`; fuel `(-E).toNat + 1` suffices. -/
def findScale16Core : ℕ → ℕ → ℕ → ℤ → ℕ
  | 0, k, _, _ => k
  | fuel + 1, k, M, E =>
    if dyadicGeOne M E then k else findScale16Core fuel (k + 1) (M * 16) E

/-- The exact rational `M · 2^E · 16^t` as a numerator/denominator pair. -/
def dyadicTimesPow16 (M : ℕ) (E t : ℤ) : ℕ × ℕ :=
  (M * (if 0 ≤ E then 2 ^ E.toNat else 1) * (if 0 ≤ t then 16 ^ t.toNat else 1),
   (if E < 0 then 2 ^ (-E).toNat else 1) * (if t < 0 then 16 ^ (-t).toNat else 1))

/-- `mpfr_get_str` in base 16: the correctly rounded `nd`-digit hexadecimal
mantissa with its sign and base-16 exponent. -/
def mpfr_get_str_hex (nd : ℕ) (v : MPFRFloat) : Bool × List Char × ℤ :=
  if v.num = 0 then (false, List.replicate nd '0', 0)
  else
    let neg := v.num < 0
    let M := v.num.natAbs
    let E := v.exp
    let expo : ℤ :=
      if dyadicGeOne M E then (natToHexDigits (dyadicFloor M E)).length
      else 1 - findScale16Core ((-E).toNat + 1) 0 M E
    let xy := dyadicTimesPow16 M E ((nd : ℤ) - expo)
    let m0 := roundDivHalfEven xy.1 xy.2
    let mexpo := if m0 = 16 ^ nd then (16 ^ (nd - 1), expo + 1) else (m0, expo)
    let ds := natToHexDigits mexpo.1
    (neg, List.replicate (nd - ds.length) '0' ++ ds, mexpo.2)

/-- Modelled from the spec: `mpfr_to_fixed_hex` is declared and called in
`bsplit.cpp` but its definition is not among the source files; per the spec
(§4.5) it is the base-16 analogue of the fixed-point formatter — same
mantissa-plus-exponent stitching and the same enforce-exactly-`digits`
normalization, with the `[0-9a-f]` fractional alphabet.  No claim depends on
its output; it only occupies the `base == 16` branch of
`compute_pi_base_impl`. -/
def mpfr_to_fixed_hex (v : MPFRFloat) (digits : ℕ) : String :=
  let gs := mpfr_get_str_hex (digits + 2) v
  let neg := gs.1
  let mant := gs.2.1
  let expo := gs.2.2
  let sign : List Char := if neg then ['-'] else []
  let body : List Char :=
    if expo ≤ 0 then
      '0' :: '.' :: (List.replicate (-expo).toNat '0' ++ mant)
    else
      let len := mant.length
      if (len : ℤ) ≤ expo then
        mant ++ List.replicate (expo.toNat - len) '0' ++ ['.']
      else
        mant.take expo.toNat ++
          '.' :: (mant.drop expo.toNat).take ((min (len : ℤ) (expo + digits)).toNat - expo.toNat)
  String.mk (enforceDigits (sign ++ body) digits)

/-- `if (T_abs < 0) T_abs = -T_abs;` applied to `S.T` — the `tf` operand of
the final division. -/
def t_abs (S : BSplitTriplet) : ℤ := if S.T < 0 then -S.T else S.T

/-- The MPFR tail shared verbatim by `compute_pi_impl`,
`compute_pi_base_impl` and `compute_pi_base_threaded_impl`:

```
mpfr_set_ui(sqrt10005, 10005u, MPFR_RNDN);
mpfr_sqrt(sqrt10005, sqrt10005, MPFR_RNDN);
mpfr_set_z(qf, S.Q.get_mpz_t(), MPFR_RNDN);
mpz_class T_abs = S.T; if (T_abs < 0) T_abs = -T_abs;
mpfr_set_z(tf, T_abs.get_mpz_t(), MPFR_RNDN);
mpfr_mul_ui(tmp, sqrt10005, 426880u, MPFR_RNDN);
mpfr_mul(tmp, tmp, qf, MPFR_RNDN);
mpfr_div(pi, tmp, tf, MPFR_RNDN);
```

with every variable initialised at `prec_bits`. -/
def assemble_pi (prec : ℕ) (S : BSplitTriplet) : MPFRFloat :=
  let sqrt10005 := mpfr_sqrt prec (mpfr_set_ui prec 10005)
  let qf := mpfr_set_z prec S.Q
  let tf := mpfr_set_z prec (t_abs S)
  let tmp := mpfr_mul_ui prec sqrt10005 426880
  let tmp2 := mpfr_mul prec tmp qf
  mpfr_div prec tmp2 tf

/-- `static std::string compute_pi_impl(std::size_t digits, Progress* prog)`
with a null progress sink. -/
def compute_pi_impl (digits : ℕ) : String :=
  let prec := prec_bits_dec digits
  let n := n_terms digits
  let S := bsplit_chudnovsky 0 n
  mpfr_to_fixed_decimal (assemble_pi prec S) digits

/-- `std::string compute_pi(std::size_t digits)`. -/
def compute_pi (digits : ℕ) : String := compute_pi_impl digits

/-- `static std::string compute_pi_base_impl(std::size_t digits, int base,
Progress* prog)` with a null progress sink.  Note the source contains no
base validation: any `base != 16` takes the decimal path. -/
def compute_pi_base_impl (digits : ℕ) (base : ℤ) : String :=
  let prec := prec_bits_base digits base
  let n := n_terms digits
  let S := bsplit_chudnovsky 0 n
  let piv := assemble_pi prec S
  if base = 16 then mpfr_to_fixed_hex piv digits
  else mpfr_to_fixed_decimal piv digits

/-- `std::string compute_pi_base(std::size_t digits, int base)`. -/
def compute_pi_base (digits : ℕ) (base : ℤ) : String :=
  compute_pi_base_impl digits base

/-- `static std::string compute_pi_base_threaded_impl(std::size_t digits,
int base, int num_threads, Progress* prog)` with a null progress sink:
uses the parallel evaluator when `num_threads > 1`. -/
def compute_pi_base_threaded_impl (digits : ℕ) (base num_threads : ℤ) : String :=
  let prec := prec_bits_base digits base
  let n := n_terms digits
  let S := if 1 < num_threads then bsplit_chudnovsky_parallel 0 n num_threads
           else bsplit_chudnovsky 0 n
  let piv := assemble_pi prec S
  if base = 16 then mpfr_to_fixed_hex piv digits
  else mpfr_to_fixed_decimal piv digits

/-- `std::string compute_pi_base_threaded(std::size_t digits, int base,
int num_threads)`. -/
def compute_pi_base_threaded (digits : ℕ) (base num_threads : ℤ) : String :=
  compute_pi_base_threaded_impl digits base num_threads

/-! ## Self-test (src/unnamed/part_016) -/

/-- `mpfr_const_pi(ref, MPFR_RNDN)` at precision `p`: the external MPFR
library's correctly rounded π.  Modelled mathematically from the library
contract; a rounding tie is impossible because π is irrational, so the
half-up `round` coincides with round-to-nearest ties-to-even here. -/
noncomputable def mpfr_const_pi (p : ℕ) : MPFRFloat :=
  let e : ℤ := Int.log 2 Real.pi + 1
  ⟨round (Real.pi * (2 : ℝ) ^ ((p : ℤ) - e)), e - p⟩

/-- The scan `while (i < n && got[i] == expected[i]) ++i;` computing the
first mismatch index (`n = min of the lengths`). -/
def mismatchIdx : List Char → List Char → ℕ
  | x :: xs, y :: ys => if x = y then mismatchIdx xs ys + 1 else 0
  | _, _ => 0

/-- `bool self_test(std::size_t digits, std::string* message)` of
src/unnamed/part_016, with a non-null `message`; returns the verdict and the
message. -/
noncomputable def self_test (digits : ℕ) : Bool × String :=
  let prec := prec_bits_dec digits
  let expected := mpfr_to_fixed_decimal (mpfr_const_pi prec) digits
  let got := compute_pi digits
  let ok := got = expected
  (ok,
    if ok then "OK - outputs match exactly"
    else "Mismatch at char index " ++ toString (mismatchIdx got.data expected.data))

/-! ## Derived quantities used by the correctness proofs -/

/-- `P` component of the leaf at `k`. -/
def pLeaf (k : ℕ) : ℤ := (leaf k).P

/-- `Q` component of the leaf at `k`. -/
def qLeaf (k : ℕ) : ℤ := (leaf k).Q

/-- `T` component of the leaf at `k`. -/
def tLeaf (k : ℕ) : ℤ := (leaf k).T

/-- The magnitude of the `T` leaf: `P_k · (A + B·k)`; also correct at
`k = 0` where the leaf is `(1, 1, A)`. -/
def tMag (k : ℕ) : ℤ := pLeaf k * (A + B * k)

/-- The summand magnitude of the closed form of `T` over `[0, n)`. -/
def termMag (n k : ℕ) : ℤ :=
  (∏ j ∈ Finset.Ico 0 k, pLeaf j) * tMag k * (∏ j ∈ Finset.Ico (k + 1) n, qLeaf j)

/-! ## Sanity checks on small inputs -/

example : C3_OVER_24 = 10939058860032000 := by decide
example : leaf 0 = ⟨1, 1, 13591409⟩ := by decide
example : leaf 1 = ⟨5, 10939058860032000, -2793657715⟩ := by decide
example : bsplit_chudnovsky 0 2 =
    mergeTriplet (leaf 0) (leaf 1) := by decide
example : n_terms 50 = 5 := by decide
example : prec_bits_dec 50 = 230 := by decide
example : n_terms 1 = 2 := by decide
example : prec_bits_dec 1 = 67 := by decide

/-! ## The evaluator satisfies the C++ recursion -/

theorem bsplitCore_congr : ∀ f g a b : ℕ, a < b → b - a ≤ f → b - a ≤ g →
    bsplitCore f a b = bsplitCore g a b := by
  intro f
  induction f with
  | zero => intro g a b hab hf _; omega
  | succ f ih =>
    intro g a b hab hf hg
    cases g with
    | zero => omega
    | succ g =>
      simp only [bsplitCore]
      by_cases h1 : b - a = 1
      · simp [h1]
      · have h2 : 2 ≤ b - a := by omega
        have hm1 : a < (a + b) / 2 := by omega
        have hm2 : (a + b) / 2 < b := by omega
        simp only [h1, if_false]
        rw [ih g a ((a + b) / 2) hm1 (by omega) (by omega),
          ih g ((a + b) / 2) b hm2 (by omega) (by omega)]

/-- The wrapper with fuel `b - a` satisfies exactly the recursion of
`bsplit_impl(long a, long b)` on the inputs where the C++ terminates. -/
theorem bsplit_chudnovsky_eq (a b : ℕ) (h : a < b) :
    bsplit_chudnovsky a b =
      if b - a = 1 then leaf a
      else mergeTriplet (bsplit_chudnovsky a ((a + b) / 2))
        (bsplit_chudnovsky ((a + b) / 2) b) := by
  have h0 : b - a = (b - a - 1) + 1 := by omega
  conv_lhs => rw [bsplit_chudnovsky, h0]
  simp only [bsplitCore]
  by_cases h1 : b - a = 1
  · simp [h1]
  · have h2 : 2 ≤ b - a := by omega
    have hm1 : a < (a + b) / 2 := by omega
    have hm2 : (a + b) / 2 < b := by omega
    simp only [h1, if_false]
    rw [bsplitCore_congr (b - a - 1) ((a + b) / 2 - a) a ((a + b) / 2) hm1 (by omega) le_rfl,
      bsplitCore_congr (b - a - 1) (b - (a + b) / 2) ((a + b) / 2) b hm2 (by omega) le_rfl]
    rfl

/-! ## Closed form of the evaluator over a range -/

theorem bsplitCore_closed : ∀ f a b : ℕ, a < b → b - a ≤ f →
    (bsplitCore f a b).P = ∏ k ∈ Finset.Ico a b, pLeaf k ∧
    (bsplitCore f a b).Q = ∏ k ∈ Finset.Ico a b, qLeaf k ∧
    (bsplitCore f a b).T = ∑ k ∈ Finset.Ico a b,
      (∏ j ∈ Finset.Ico a k, pLeaf j) * tLeaf k * (∏ j ∈ Finset.Ico (k + 1) b, qLeaf j) := by
  intro f
  induction f with
  | zero => intro a b hab hf; omega
  | succ f ih =>
    intro a b hab hf
    simp only [bsplitCore]
    by_cases h1 : b - a = 1
    · have hb : b = a + 1 := by omega
      subst hb
      simp [pLeaf, qLeaf, tLeaf, Finset.sum_Ico_eq_sum_range, Finset.Ico_self]
    · have h2 : 2 ≤ b - a := by omega
      set m := (a + b) / 2 with hm
      have hm1 : a < m := by omega
      have hm2 : m < b := by omega
      obtain ⟨hLP, hLQ, hLT⟩ := ih a m hm1 (by omega)
      obtain ⟨hRP, hRQ, hRT⟩ := ih m b hm2 (by omega)
      simp only [h1, if_false, mergeTriplet, hLP, hLQ, hLT, hRP, hRQ, hRT]
      refine ⟨Finset.prod_Ico_consecutive _ hm1.le hm2.le,
        Finset.prod_Ico_consecutive _ hm1.le hm2.le, ?_⟩
      rw [Finset.sum_mul, Finset.mul_sum]
      have hL : ∀ k ∈ Finset.Ico a m,
          (∏ j ∈ Finset.Ico a k, pLeaf j) * tLeaf k * (∏ j ∈ Finset.Ico (k + 1) m, qLeaf j) *
            (∏ j ∈ Finset.Ico m b, qLeaf j)
          = (∏ j ∈ Finset.Ico a k, pLeaf j) * tLeaf k *
              (∏ j ∈ Finset.Ico (k + 1) b, qLeaf j) := by
        intro k hk
        rw [Finset.mem_Ico] at hk
        rw [mul_assoc ((∏ j ∈ Finset.Ico a k, pLeaf j) * tLeaf k),
          Finset.prod_Ico_consecutive _ (by omega : k + 1 ≤ m) hm2.le]
      have hR : ∀ k ∈ Finset.Ico m b,
          (∏ j ∈ Finset.Ico a m, pLeaf j) *
            ((∏ j ∈ Finset.Ico m k, pLeaf j) * tLeaf k * (∏ j ∈ Finset.Ico (k + 1) b, qLeaf j))
          = (∏ j ∈ Finset.Ico a k, pLeaf j) * tLeaf k *
              (∏ j ∈ Finset.Ico (k + 1) b, qLeaf j) := by
        intro k hk
        rw [Finset.mem_Ico] at hk
        rw [← mul_assoc, ← mul_assoc,
          Finset.prod_Ico_consecutive _ hm1.le (by omega : m ≤ k)]
      rw [Finset.sum_congr rfl hL, Finset.sum_congr rfl hR,
        Finset.sum_Ico_consecutive _ hm1.le hm2.le]

theorem bsplit_chudnovsky_closed (a b : ℕ) (h : a < b) :
    (bsplit_chudnovsky a b).P = ∏ k ∈ Finset.Ico a b, pLeaf k ∧
    (bsplit_chudnovsky a b).Q = ∏ k ∈ Finset.Ico a b, qLeaf k ∧
    (bsplit_chudnovsky a b).T = ∑ k ∈ Finset.Ico a b,
      (∏ j ∈ Finset.Ico a k, pLeaf j) * tLeaf k * (∏ j ∈ Finset.Ico (k + 1) b, qLeaf j) :=
  bsplitCore_closed (b - a) a b h le_rfl

/-! ## Signs and magnitudes of the leaves -/

theorem pLeaf_pos (k : ℕ) : 0 < pLeaf k := by
  rcases Nat.eq_zero_or_pos k with h | h
  · subst h; decide
  · have hk : (1 : ℤ) ≤ (k : ℤ) := by exact_mod_cast h
    simp only [pLeaf, leaf, if_neg (by omega : ¬ k = 0)]
    have h1 : (0 : ℤ) < 6 * (k : ℤ) - 5 := by linarith
    have h2 : (0 : ℤ) < 2 * (k : ℤ) - 1 := by linarith
    have h3 : (0 : ℤ) < 6 * (k : ℤ) - 1 := by linarith
    exact mul_pos (mul_pos h1 h2) h3

theorem qLeaf_pos (k : ℕ) : 0 < qLeaf k := by
  rcases Nat.eq_zero_or_pos k with h | h
  · subst h; decide
  · have hk : (1 : ℤ) ≤ (k : ℤ) := by exact_mod_cast h
    simp only [qLeaf, leaf, if_neg (by omega : ¬ k = 0)]
    have hC : (0 : ℤ) < C3_OVER_24 := by decide
    positivity

theorem tMag_pos (k : ℕ) : 0 < tMag k := by
  have h1 := pLeaf_pos k
  have h2 : (0 : ℤ) < A + B * k := by
    have : (0 : ℤ) ≤ (k : ℤ) := by positivity
    simp only [A, B]; nlinarith
  exact mul_pos h1 h2

/-- The `T` leaf is the magnitude with the alternating sign `(-1)^k`
(`if (a & 1) T = -T;`). -/
theorem tLeaf_eq_sign_mul (k : ℕ) : tLeaf k = (-1) ^ k * tMag k := by
  rcases Nat.eq_zero_or_pos k with h | h
  · subst h; decide
  · simp only [tLeaf, tMag, pLeaf, leaf, if_neg (by omega : ¬ k = 0)]
    rcases Nat.even_or_odd k with he | ho
    · have h2 : k % 2 = 0 := Nat.even_iff.mp he
      rw [if_neg (by omega), he.neg_one_pow, one_mul]
    · have h2 : k % 2 = 1 := Nat.odd_iff.mp ho
      rw [if_pos h2, ho.neg_one_pow, neg_one_mul]

/-- The key dominance inequality: the magnitude of term `k` exceeds that of
term `k+1` after cancelling the common factors, i.e.
`p_{k+1} · (A + B(k+1)) < (A + Bk) · q_{k+1}`. -/
theorem leaf_ratio_lt (k : ℕ) :
    pLeaf (k + 1) * (A + B * (k + 1)) < (A + B * k) * qLeaf (k + 1) := by
  have hx : (0 : ℤ) ≤ (k : ℤ) := by positivity
  have hp : pLeaf (k + 1) = (6 * ((k : ℤ) + 1) - 5) * (2 * ((k : ℤ) + 1) - 1) *
      (6 * ((k : ℤ) + 1) - 1) := by
    simp only [pLeaf, leaf, if_neg (by omega : ¬ k + 1 = 0)]
    push_cast
    ring
  have hq : qLeaf (k + 1) = ((k : ℤ) + 1) ^ 3 * 10939058860032000 := by
    simp only [qLeaf, leaf, if_neg (by omega : ¬ k + 1 = 0)]
    have : C3_OVER_24 = 10939058860032000 := by decide
    rw [this]
    simp only [Nat.cast_add, Nat.cast_one]
    ring
  rw [hp, hq]
  simp only [A, B]
  nlinarith [sq_nonneg ((k : ℤ)), sq_nonneg ((k : ℤ) + 1), pow_pos (by linarith : (0:ℤ) < (k:ℤ) + 1) 3,
    mul_nonneg hx hx, mul_nonneg (mul_nonneg hx hx) hx]

/-! ## Alternating sums with strictly decreasing positive terms -/

theorem alt_sum_bound (M : ℕ → ℤ) :
    ∀ d j : ℕ, 1 ≤ d → (∀ k, j ≤ k → k < j + d → 0 < M k) →
      (∀ k, j ≤ k → k + 1 < j + d → M (k + 1) < M k) →
      0 < (-1) ^ j * ∑ k ∈ Finset.Ico j (j + d), (-1) ^ k * M k ∧
      (-1) ^ j * ∑ k ∈ Finset.Ico j (j + d), (-1) ^ k * M k ≤ M j := by
  intro d
  induction d with
  | zero => intro j h; omega
  | succ d ih =>
    intro j _ hpos hdec
    have hself : ((-1 : ℤ)) ^ j * (-1) ^ j = 1 := by
      rw [← pow_add]
      exact Even.neg_one_pow ⟨j, by ring⟩
    rcases Nat.eq_zero_or_pos d with hd | hd
    · subst hd
      rw [Finset.sum_eq_sum_Ico_succ_bot (by omega : j < j + 1),
        Finset.Ico_self, Finset.sum_empty, add_zero, ← mul_assoc, hself, one_mul]
      exact ⟨hpos j le_rfl (by omega), le_rfl⟩
    · have hstep : M (j + 1) < M j := hdec j le_rfl (by omega)
      have hpos' : ∀ k, j + 1 ≤ k → k < j + 1 + d → 0 < M k := by
        intro k h1 h2; exact hpos k (by omega) (by omega)
      have hdec' : ∀ k, j + 1 ≤ k → k + 1 < j + 1 + d → M (k + 1) < M k := by
        intro k h1 h2; exact hdec k (by omega) (by omega)
      obtain ⟨ih1, ih2⟩ := ih (j + 1) hd hpos' hdec'
      have hsplit : ∑ k ∈ Finset.Ico j (j + (d + 1)), (-1) ^ k * M k
          = (-1) ^ j * M j + ∑ k ∈ Finset.Ico (j + 1) (j + 1 + d), (-1) ^ k * M k := by
        have hd1 : j + (d + 1) = j + 1 + d := by omega
        rw [hd1, Finset.sum_eq_sum_Ico_succ_bot (by omega : j < j + 1 + d)]
      rw [hsplit, mul_add, ← mul_assoc, hself, one_mul]
      have hneg : ((-1 : ℤ)) ^ j * ∑ k ∈ Finset.Ico (j + 1) (j + 1 + d), (-1) ^ k * M k
          = -((-1 : ℤ) ^ (j + 1) * ∑ k ∈ Finset.Ico (j + 1) (j + 1 + d), (-1) ^ k * M k) := by
        rw [pow_succ]
        ring
      constructor
      · have : (-1 : ℤ) ^ (j + 1) * ∑ k ∈ Finset.Ico (j + 1) (j + 1 + d), (-1) ^ k * M k
            ≤ M (j + 1) := ih2
        nlinarith [ih1, ih2]
      · nlinarith [ih1]

/-! ## The root triplet: positive Q, positive T -/

theorem prod_pLeaf_pos (s : Finset ℕ) : 0 < ∏ k ∈ s, pLeaf k :=
  Finset.prod_pos fun k _ => pLeaf_pos k

theorem prod_qLeaf_pos (s : Finset ℕ) : 0 < ∏ k ∈ s, qLeaf k :=
  Finset.prod_pos fun k _ => qLeaf_pos k

theorem termMag_pos (n k : ℕ) : 0 < termMag n k :=
  mul_pos (mul_pos (prod_pLeaf_pos _) (tMag_pos k)) (prod_qLeaf_pos _)

theorem termMag_strict_anti (n k : ℕ) (h : k + 1 < n) :
    termMag n (k + 1) < termMag n k := by
  have e1 : (∏ j ∈ Finset.Ico 0 (k + 1), pLeaf j)
      = (∏ j ∈ Finset.Ico 0 k, pLeaf j) * pLeaf k := by
    rw [Finset.prod_Ico_succ_top (by omega)]
  have e2 : (∏ j ∈ Finset.Ico (k + 1) n, qLeaf j)
      = qLeaf (k + 1) * ∏ j ∈ Finset.Ico (k + 2) n, qLeaf j := by
    rw [Finset.prod_eq_prod_Ico_succ_bot (by omega : k + 1 < n)]
  have hC : (0 : ℤ) < (∏ j ∈ Finset.Ico 0 k, pLeaf j) * pLeaf k *
      ∏ j ∈ Finset.Ico (k + 2) n, qLeaf j :=
    mul_pos (mul_pos (prod_pLeaf_pos _) (pLeaf_pos k)) (prod_qLeaf_pos _)
  have key := leaf_ratio_lt k
  simp only [termMag, tMag, e1, e2]
  calc (∏ j ∈ Finset.Ico 0 k, pLeaf j) * pLeaf k * (pLeaf (k + 1) * (A + B * (k + 1))) *
        ∏ j ∈ Finset.Ico (k + 2) n, qLeaf j
      = ((∏ j ∈ Finset.Ico 0 k, pLeaf j) * pLeaf k * ∏ j ∈ Finset.Ico (k + 2) n, qLeaf j) *
        (pLeaf (k + 1) * (A + B * (k + 1))) := by ring
    _ < ((∏ j ∈ Finset.Ico 0 k, pLeaf j) * pLeaf k * ∏ j ∈ Finset.Ico (k + 2) n, qLeaf j) *
        ((A + B * k) * qLeaf (k + 1)) := by
        exact mul_lt_mul_of_pos_left key hC
    _ = (∏ j ∈ Finset.Ico 0 k, pLeaf j) * (pLeaf k * (A + B * k)) *
        (qLeaf (k + 1) * ∏ j ∈ Finset.Ico (k + 2) n, qLeaf j) := by ring

/-- The root `T` over `[0, n)` is strictly positive: the closed form is an
alternating sum whose magnitudes strictly decrease, led by a positive term. -/
theorem bsplit_T_pos (n : ℕ) (hn : 1 ≤ n) : 0 < (bsplit_chudnovsky 0 n).T := by
  obtain ⟨-, -, hT⟩ := bsplit_chudnovsky_closed 0 n hn
  have hsum : (bsplit_chudnovsky 0 n).T = ∑ k ∈ Finset.Ico 0 n, (-1) ^ k * termMag n k := by
    rw [hT]
    refine Finset.sum_congr rfl fun k _ => ?_
    rw [tLeaf_eq_sign_mul]
    simp only [termMag]
    ring
  have := alt_sum_bound (termMag n) n 0 hn
    (fun k _ _ => termMag_pos n k) (fun k _ hk => termMag_strict_anti n k (by omega))
  rw [hsum]
  have h0 : ((0 : ℕ) + n) = n := by omega
  simpa [h0] using this.1

theorem bsplit_Q_pos (n : ℕ) (hn : 1 ≤ n) : 0 < (bsplit_chudnovsky 0 n).Q := by
  obtain ⟨-, hQ, -⟩ := bsplit_chudnovsky_closed 0 n hn
  rw [hQ]
  exact prod_qLeaf_pos _

/-! ## Rounding a nonzero integer never produces zero -/

theorem bitLenCore_zero : ∀ f, bitLenCore f 0 = 0 := by
  intro f; cases f <;> simp [bitLenCore]

theorem bitLenCore_bounds : ∀ f n : ℕ, 1 ≤ n → n ≤ f →
    2 ^ (bitLenCore f n - 1) ≤ n ∧ n < 2 ^ bitLenCore f n := by
  intro f
  induction f with
  | zero => intro n h1 h2; omega
  | succ f ih =>
    intro n h1 h2
    simp only [bitLenCore, if_neg (by omega : ¬ n = 0)]
    rcases Nat.lt_or_ge n 2 with h | h
    · have hn1 : n = 1 := by omega
      subst hn1
      simp [bitLenCore_zero]
    · have ihh := ih (n / 2) (by omega) (by omega)
      set L := bitLenCore f (n / 2) with hL
      have hL1 : 1 ≤ L := by
        by_contra hc
        have : L = 0 := by omega
        rw [this] at ihh
        simp at ihh
        omega
      have e1 : 2 ^ L = 2 * 2 ^ (L - 1) := by
        conv_lhs => rw [show L = (L - 1) + 1 by omega]
        rw [pow_succ]
        ring
      have e2 : 2 ^ (L + 1) = 2 * 2 ^ L := by rw [pow_succ]; ring
      constructor
      · simp only [Nat.add_sub_cancel]
        omega
      · omega

theorem bitLen_bounds (n : ℕ) (h : 1 ≤ n) :
    2 ^ (bitLen n - 1) ≤ n ∧ n < 2 ^ bitLen n :=
  bitLenCore_bounds n n h le_rfl

theorem roundDivHalfEven_ge_div (x y : ℕ) : x / y ≤ roundDivHalfEven x y := by
  simp only [roundDivHalfEven]
  split <;> [omega; skip]
  split <;> [omega; skip]
  split <;> omega

theorem roundNatPrec_pos (p m : ℕ) (hp : 1 ≤ p) (hm : 1 ≤ m) :
    1 ≤ (roundNatPrec p m).1 := by
  simp only [roundNatPrec]
  split
  · exact hm
  · rename_i hL
    have hb := bitLen_bounds m hm
    have hq : 1 ≤ m / 2 ^ (bitLen m - p) := by
      have hle : 2 ^ (bitLen m - p) ≤ 2 ^ (bitLen m - 1) :=
        Nat.pow_le_pow_right (by omega) (by omega)
      exact (Nat.one_le_div_iff (Nat.pos_pow_of_pos _ (by omega))).mpr (le_trans hle hb.1)
    exact le_trans hq (roundDivHalfEven_ge_div _ _)

/-- `mpfr_set_z` of a nonzero integer at any positive precision is nonzero:
the divisor `tf` of the final division is never the MPFR zero. -/
theorem mpfr_set_z_ne_zero (p : ℕ) (z : ℤ) (hp : 1 ≤ p) (hz : z ≠ 0) :
    (mpfr_set_z p z).num ≠ 0 := by
  simp only [mpfr_set_z, roundDyadic, if_neg hz]
  have hm : 1 ≤ z.natAbs := by omega
  have := roundNatPrec_pos p z.natAbs hp hm
  split <;> simp <;> omega

/-! ## Progress reporting: one tick per leaf, in order -/

theorem bsplitProgCore_spec : ∀ f a b : ℕ, ∀ s : Progress, a < b → b - a ≤ f →
    bsplitProgCore f a b s =
      (bsplitCore f a b,
        ⟨s.total, s.done + (b - a),
          s.ticks ++ (List.range (b - a)).map (fun i => (s.done + i + 1, s.total))⟩) := by
  intro f
  induction f with
  | zero => intro a b s hab hf; omega
  | succ f ih =>
    intro a b s hab hf
    simp only [bsplitProgCore, bsplitCore]
    by_cases h1 : b - a = 1
    · simp [h1, List.range_succ]
    · have h2 : 2 ≤ b - a := by omega
      set m := (a + b) / 2 with hm
      have hm1 : a < m := by omega
      have hm2 : m < b := by omega
      simp only [h1, if_false]
      rw [ih a m s hm1 (by omega)]
      rw [ih m b _ hm2 (by omega)]
      refine congrArg _ ?_
      have hsum : s.done + (m - a) + (b - m) = s.done + (b - a) := by omega
      have hrange : (List.range (b - a)).map (fun i => (s.done + i + 1, s.total))
          = (List.range (m - a)).map (fun i => (s.done + i + 1, s.total)) ++
            (List.range (b - m)).map (fun i => (s.done + (m - a) + i + 1, s.total)) := by
        have hsplit : b - a = (m - a) + (b - m) := by omega
        rw [hsplit, List.range_add, List.map_append, List.map_map]
        refine congrArg _ (List.map_congr_left fun i _ => ?_)
        simp only [Function.comp_apply]
        refine Prod.ext ?_ rfl
        omega
      rw [hrange, ← List.append_assoc, hsum]

/-- `bsplit_chudnovsky(0, n, prog)` with `prog->done = 0; prog->total = n`
ticks once per leaf with the values `(1, n), (2, n), …, (n, n)` in order. -/
theorem bsplit_chudnovsky_prog_spec (n : ℕ) (hn : 1 ≤ n) :
    bsplit_chudnovsky_prog 0 n ⟨n, 0, []⟩ =
      (bsplit_chudnovsky 0 n, ⟨n, n, (List.range n).map (fun i => (i + 1, n))⟩) := by
  have := bsplitProgCore_spec n 0 n ⟨n, 0, []⟩ hn (by omega)
  simp only [bsplit_chudnovsky_prog, bsplit_chudnovsky, Nat.sub_zero] at this ⊢
  rw [this]
  simp

/-! ## The first-mismatch scan of `self_test` -/

theorem mismatchIdx_spec : ∀ a b : List Char, a ≠ b →
    a.take (mismatchIdx a b) = b.take (mismatchIdx a b) ∧
    a.get? (mismatchIdx a b) ≠ b.get? (mismatchIdx a b) := by
  intro a
  induction a with
  | nil =>
    intro b hb
    cases b with
    | nil => exact absurd rfl hb
    | cons y ys => simp [mismatchIdx]
  | cons x xs ih =>
    intro b hne
    cases b with
    | nil => simp [mismatchIdx]
    | cons y ys =>
      by_cases hxy : x = y
      · subst hxy
        have hne' : xs ≠ ys := fun h => hne (by rw [h])
        obtain ⟨ht, hg⟩ := ih ys hne'
        simp only [mismatchIdx, if_pos rfl]
        exact ⟨by simp [List.take_succ_cons, ht], by simpa using hg⟩
      · simp [mismatchIdx, hxy]

theorem mismatchIdx_le : ∀ a b : List Char,
    mismatchIdx a b ≤ min a.length b.length := by
  intro a
  induction a with
  | nil => intro b; simp [mismatchIdx]
  | cons x xs ih =>
    intro b
    cases b with
    | nil => simp [mismatchIdx]
    | cons y ys =>
      by_cases hxy : x = y
      · simp only [mismatchIdx, if_pos hxy, List.length_cons]
        have := ih ys
        omega
      · simp [mismatchIdx, hxy]

/-! ## Digit characters -/

theorem natToDigitsCore_digits : ∀ f n : ℕ, ∀ acc : List Char,
    (∀ c ∈ acc, c.isDigit = true) →
    ∀ c ∈ natToDigitsCore f n acc, c.isDigit = true := by
  intro f
  induction f with
  | zero => intro n acc hacc; simpa [natToDigitsCore] using hacc
  | succ f ih =>
    intro n acc hacc c hc
    simp only [natToDigitsCore] at hc
    by_cases h0 : n = 0
    · rw [if_pos h0] at hc; exact hacc c hc
    · rw [if_neg h0] at hc
      refine ih (n / 10) _ ?_ c hc
      intro d hd
      rcases List.mem_cons.mp hd with h | h
      · subst h
        have h10 : n % 10 < 10 := Nat.mod_lt _ (by omega)
        interval_cases h : n % 10 <;> decide
      · exact hacc d h

theorem natToDigits_digits (n : ℕ) : ∀ c ∈ natToDigits n, c.isDigit = true := by
  simp only [natToDigits]
  split
  · intro c hc; simp at hc; subst hc; decide
  · exact natToDigitsCore_digits n n [] (by simp)

theorem replicate_zero_digits (n : ℕ) : ∀ c ∈ List.replicate n '0', c.isDigit = true := by
  intro c hc
  rw [List.eq_of_mem_replicate hc]
  decide

/-- The mantissa produced by the `mpfr_get_str` model consists of decimal
digit characters only. -/
theorem mpfr_get_str_dec_digits (nd : ℕ) (v : MPFRFloat) :
    ∀ c ∈ (mpfr_get_str_dec nd v).2.1, c.isDigit = true := by
  simp only [mpfr_get_str_dec]
  split
  · exact replicate_zero_digits nd
  · intro c hc
    rcases List.mem_append.mp hc with h | h
    · exact replicate_zero_digits _ c h
    · exact natToDigits_digits _ c h

theorem isDigit_ne_dot {c : Char} (h : c.isDigit = true) : c ≠ '.' := by
  intro he
  subst he
  simp [Char.isDigit] at h

/-! ## Shape of the fixed-point formatter output -/

theorem findIdx_dot_aux : ∀ pre suf : List Char, '.' ∉ pre → ∀ i : ℕ,
    List.findIdx? (fun x => decide (x = '.')) (pre ++ '.' :: suf) i = some (i + pre.length) := by
  intro pre
  induction pre with
  | nil =>
    intro suf _ i
    simp [List.findIdx?_cons]
  | cons c cs ih =>
    intro suf hpre i
    have hc : ¬ (c = '.') := fun h => hpre (by simp [h])
    have hcs : '.' ∉ cs := fun h => hpre (List.mem_cons_of_mem _ h)
    simp only [List.cons_append, List.findIdx?_cons, decide_eq_true_eq, hc, if_false]
    rw [ih suf hcs (i + 1)]
    congr 1
    simp
    omega

theorem findIdx_dot (pre suf : List Char) (hpre : '.' ∉ pre) :
    (pre ++ '.' :: suf).findIdx? (· = '.') = some pre.length := by
  have := findIdx_dot_aux pre suf hpre 0
  simpa using this

/-- The normalization block turns `pre ++ '.' :: suf` (with a dot-free
prefix and an all-digit fractional part) into the same prefix followed by
exactly `digits` digit characters. -/
theorem enforceDigits_spec (pre suf : List Char) (digits : ℕ) (hpre : '.' ∉ pre)
    (hsuf : ∀ c ∈ suf, c.isDigit = true) :
    ∃ suf', enforceDigits (pre ++ '.' :: suf) digits = pre ++ '.' :: suf' ∧
      suf'.length = digits ∧ ∀ c ∈ suf', c.isDigit = true := by
  have hidx := findIdx_dot pre suf hpre
  simp only [enforceDigits, hidx]
  have hlen : (pre ++ '.' :: suf).length = pre.length + 1 + suf.length := by
    simp [List.length_append]
    omega
  rw [hlen]
  have hv_eq : pre.length + 1 + suf.length - pre.length - 1 = suf.length := by omega
  rw [hv_eq]
  by_cases h1 : suf.length < digits
  · refine ⟨suf ++ List.replicate (digits - suf.length) '0', ?_, ?_, ?_⟩
    · rw [if_pos h1]
      simp [List.append_assoc]
    · simp only [List.length_append, List.length_replicate]
      omega
    · intro c hc
      rcases List.mem_append.mp hc with h | h
      · exact hsuf c h
      · exact replicate_zero_digits _ c h
  · by_cases h2 : digits < suf.length
    · refine ⟨suf.take digits, ?_, ?_, ?_⟩
      · rw [if_neg h1, if_pos h2]
        rw [List.take_append_eq_append_take, List.take_of_length_le (by omega),
          show pre.length + 1 + digits - pre.length = digits + 1 by omega,
          List.take_succ_cons]
      · rw [List.length_take]
        omega
      · intro c hc
        exact hsuf c (List.take_subset _ _ hc)
    · have h3 : suf.length = digits := by omega
      exact ⟨suf, by rw [if_neg h1, if_neg h2], h3, hsuf⟩

/-- Every string produced by `mpfr_to_fixed_decimal` is a dot-free prefix,
one `'.'`, and exactly `digits` decimal digit characters. -/
theorem mpfr_to_fixed_decimal_shape (v : MPFRFloat) (digits : ℕ) :
    ∃ pre suf : List Char,
      (mpfr_to_fixed_decimal v digits).data = pre ++ '.' :: suf ∧
      '.' ∉ pre ∧ suf.length = digits ∧ ∀ c ∈ suf, c.isDigit = true := by
  have hmant := mpfr_get_str_dec_digits (digits + 2) v
  simp only [mpfr_to_fixed_decimal]
  set gs := mpfr_get_str_dec (digits + 2) v with hgs
  set mant := gs.2.1 with hmant_def
  set expo := gs.2.2 with hexpo_def
  set sign : List Char := (if gs.1 then ['-'] else []) with hsign
  have hsign_dot : '.' ∉ sign := by
    rw [hsign]
    split <;> simp
  by_cases hc1 : expo ≤ 0
  · rw [if_pos hc1]
    have hshape : sign ++ ('0' :: '.' :: (List.replicate (-expo).toNat '0' ++ mant))
        = (sign ++ ['0']) ++ '.' :: (List.replicate (-expo).toNat '0' ++ mant) := by
      simp
    rw [hshape]
    obtain ⟨suf', he, hl, hd⟩ := enforceDigits_spec (sign ++ ['0'])
      (List.replicate (-expo).toNat '0' ++ mant) digits
      (by
        intro h
        rcases List.mem_append.mp h with h | h
        · exact hsign_dot h
        · simp at h)
      (by
        intro c hc
        rcases List.mem_append.mp hc with h | h
        · exact replicate_zero_digits _ c h
        · exact hmant c h)
    exact ⟨sign ++ ['0'], suf', he, by
      intro h
      rcases List.mem_append.mp h with h | h
      · exact hsign_dot h
      · simp at h, hl, hd⟩
  · rw [if_neg hc1]
    by_cases hc2 : (mant.length : ℤ) ≤ expo
    · rw [if_pos hc2]
      have hshape : sign ++ (mant ++ List.replicate (expo.toNat - mant.length) '0' ++ ['.'])
          = (sign ++ (mant ++ List.replicate (expo.toNat - mant.length) '0')) ++ '.' :: [] := by
        simp
      rw [hshape]
      have hpre : '.' ∉ sign ++ (mant ++ List.replicate (expo.toNat - mant.length) '0') := by
        intro h
        rcases List.mem_append.mp h with h | h
        · exact hsign_dot h
        · rcases List.mem_append.mp h with h | h
          · exact isDigit_ne_dot (hmant _ h) rfl
          · exact isDigit_ne_dot (replicate_zero_digits _ _ h) rfl
      obtain ⟨suf', he, hl, hd⟩ := enforceDigits_spec _ [] digits hpre (by simp)
      exact ⟨_, suf', he, hpre, hl, hd⟩
    · rw [if_neg hc2]
      have hpre : '.' ∉ sign ++ mant.take expo.toNat := by
        intro h
        rcases List.mem_append.mp h with h | h
        · exact hsign_dot h
        · exact isDigit_ne_dot (hmant _ (List.take_subset _ _ h)) rfl
      have hsuf : ∀ c ∈ (mant.drop expo.toNat).take
          ((min (mant.length : ℤ) (expo + digits)).toNat - expo.toNat), c.isDigit = true := by
        intro c hc
        exact hmant c (List.drop_subset _ _ (List.take_subset _ _ hc))
      have hshape : sign ++ (mant.take expo.toNat ++
            '.' :: (mant.drop expo.toNat).take
              ((min (mant.length : ℤ) (expo + digits)).toNat - expo.toNat))
          = (sign ++ mant.take expo.toNat) ++
              '.' :: (mant.drop expo.toNat).take
                ((min (mant.length : ℤ) (expo + digits)).toNat - expo.toNat) := by
        simp
      rw [hshape]
      obtain ⟨suf', he, hl, hd⟩ := enforceDigits_spec _ _ digits hpre hsuf
      exact ⟨_, suf', he, hpre, hl, hd⟩

/-! ## The planner in exact arithmetic -/

theorem natDiv_cast_eq_floor (a d : ℕ) :
    ((a / d : ℕ) : ℤ) = ⌊(a : ℚ) / (d : ℚ)⌋ := by
  rw [← Nat.floor_div_eq_div (α := ℚ) a d,
    Int.natCast_floor_eq_floor (by positivity)]

theorem natCeilDiv_cast_eq_ceil (x d : ℕ) (hd : 0 < d) :
    (((x + (d - 1)) / d : ℕ) : ℤ) = ⌈(x : ℚ) / (d : ℚ)⌉ := by
  have hdm := Nat.div_add_mod (x + (d - 1)) d
  have hmlt := Nat.mod_lt (x + (d - 1)) hd
  have h3 : x ≤ d * ((x + (d - 1)) / d) := by omega
  have h4 : d * ((x + (d - 1)) / d) < x + d := by omega
  have hdq : (0 : ℚ) < (d : ℚ) := by exact_mod_cast hd
  have h3q : (x : ℚ) ≤ (d : ℚ) * (((x + (d - 1)) / d : ℕ) : ℚ) := by exact_mod_cast h3
  have h4q : (d : ℚ) * (((x + (d - 1)) / d : ℕ) : ℚ) < (x : ℚ) + d := by exact_mod_cast h4
  rw [eq_comm, Int.ceil_eq_iff]
  rw [Int.cast_natCast]
  constructor
  · rw [lt_div_iff₀ hdq]
    linarith
  · rw [div_le_iff₀ hdq]
    linarith

theorem prec_bits_dec_eq_floor (digits : ℕ) :
    (prec_bits_dec digits : ℤ) = ⌊(digits : ℚ) * 3.3219280948873626⌋ + 64 := by
  have hlit : (3.3219280948873626 : ℚ) = (33219280948873626 : ℚ) / 10 ^ 16 := by norm_num
  have hx : (digits : ℚ) * ((33219280948873626 : ℚ) / 10 ^ 16)
      = ((digits * 33219280948873626 : ℕ) : ℚ) / ((10 ^ 16 : ℕ) : ℚ) := by
    push_cast
    ring
  rw [hlit, hx, ← natDiv_cast_eq_floor]
  simp only [prec_bits_dec]
  push_cast
  ring

theorem n_terms_eq_ceil (digits : ℕ) :
    (n_terms digits : ℤ) = ⌈(digits : ℚ) / 14.181647462725477⌉ + 1 := by
  have hlit : (14.181647462725477 : ℚ) = (14181647462725477 : ℚ) / 10 ^ 15 := by norm_num
  have hx : (digits : ℚ) / ((14181647462725477 : ℚ) / 10 ^ 15)
      = ((digits * 10 ^ 15 : ℕ) : ℚ) / ((14181647462725477 : ℕ) : ℚ) := by
    rw [div_div_eq_mul_div]
    push_cast
    ring
  rw [hlit, hx, ← natCeilDiv_cast_eq_ceil _ _ (by norm_num)]
  simp only [n_terms]
  push_cast
  ring

/-! ## The claims -/

set_option maxRecDepth 1000000 in
/-- C1.  The claim requires `bsplit_chudnovsky_parallel(0, n, W, prog)` to be
bit-identical to `bsplit_chudnovsky(0, n)`.  The code violates this: its
chunk-combination step multiplies `result.P` by `chunk.P` *before* computing
`result.T = result.T * chunk.Q + result.P * chunk.T`, so the `T` update uses
the already-updated product instead of the left prefix product that the merge
rule requires.  Already at `n = 2, W = 2` (chunks `[0,1)` and `[1,2)`) the
parallel `T` is `A·Q₁ + P₁·T₁` instead of `A·Q₁ + 1·T₁`; this theorem
evaluates both sides at that failing input, and also shows the consequent
string-level divergence: `compute_pi_base_threaded(14, 10, 2)` ends in
`…59002` where the sequential `compute_pi_base(14, 10)` ends in `…58979`. -/
theorem C1_parallel_combine_diverges :
    bsplit_chudnovsky_parallel 0 2 2 =
      ⟨5, 10939058860032000, 148677223041754696799425⟩ ∧
    bsplit_chudnovsky 0 2 =
      ⟨5, 10939058860032000, 148677223041765871430285⟩ ∧
    bsplit_chudnovsky_parallel 0 2 2 ≠ bsplit_chudnovsky 0 2 ∧
    compute_pi_base_threaded 14 10 2 = "3.14159265359002" ∧
    compute_pi_base 14 10 = "3.14159265358979" ∧
    compute_pi_base_threaded 14 10 2 ≠ compute_pi_base 14 10 := by
  refine ⟨by decide, by decide, by decide, by decide, by decide, by decide⟩

set_option maxRecDepth 1000000 in
/-- C2.  The four seed outputs in base 10 are exactly the literal strings of
the spec: `compute_pi(1) = "3.1"`, `compute_pi(5) = "3.14159"`,
`compute_pi(10) = "3.1415926535"`, and `compute_pi(50)` is the 50-digit
string.  Proved by evaluating the full embedded pipeline (binary splitting,
MPFR assembly at the planned precision, fixed-point formatting). -/
theorem C2_seed_outputs :
    compute_pi 1 = "3.1" ∧
    compute_pi 5 = "3.14159" ∧
    compute_pi 10 = "3.1415926535" ∧
    compute_pi 50 = "3.14159265358979323846264338327950288419716939937510" := by
  refine ⟨by decide, by decide, by decide, by decide⟩

set_option maxRecDepth 1000000 in
/-- C3, counterexample.  The claim says `compute_pi_base(N, base)` fails with
an `InvalidBase` error for `base ∉ {10, 16}`.  It does not: the source has no
base validation at all (only the CLI checks the `--base` string), and
`base = 7` silently takes the decimal branch of
`base == 16 ? hex : decimal`, returning the decimal digit string `"3.1"`
at `N = 1`. -/
theorem C3_invalid_base_returns_decimal_string :
    compute_pi_base 1 7 = "3.1" ∧ compute_pi_base 1 7 = compute_pi 1 := by
  refine ⟨by decide, by decide⟩

/-- C3, amended.  `compute_pi_base(N, base)` performs no base validation:
for every `base ≠ 16` it computes exactly the decimal pipeline, byte for
byte equal to `compute_pi(N)`; only the CLI rejects base strings other than
`dec`/`hex`. -/
theorem C3_no_base_validation (digits : ℕ) (base : ℤ) (h : base ≠ 16) :
    compute_pi_base digits base = compute_pi digits := by
  simp [compute_pi_base, compute_pi_base_impl, compute_pi, compute_pi_impl,
    prec_bits_base, h]

/-- C3, witness for the amended theorem at `N = 1`, `base = 7`. -/
theorem C3_no_base_validation_witness :
    (7 : ℤ) ≠ 16 ∧ compute_pi_base 1 7 = compute_pi 1 :=
  ⟨by decide, C3_no_base_validation 1 7 (by decide)⟩

set_option maxRecDepth 1000000 in
/-- C4, counterexample.  The claim states the planner computes
`P = ⌊N · 3.32192809488736⌋ + 64` for base 10, but the source literal is
`3.3219280948873626`; evaluating both in exact arithmetic, the first digit
request where the two formulas disagree is `N = 28848352`, where the claim
formula gives `95832214` while the planner yields `95832215`. -/
theorem C4_planner_constant_counterexample :
    ⌊(28848352 : ℚ) * 3.32192809488736⌋ + 64 = 95832214 ∧
    (prec_bits_dec 28848352 : ℤ) = 95832215 ∧
    ⌊(28848352 : ℚ) * 3.32192809488736⌋ + 64 ≠ (prec_bits_dec 28848352 : ℤ) := by
  refine ⟨by norm_num, by norm_num [prec_bits_dec], by norm_num [prec_bits_dec]⟩

/-- C4, amended.  With the constants the source actually uses —
`3.3219280948873626` bits per decimal digit (`4.0` per hex digit) and
`14.181647462725477` digits per term, evaluated in exact rational
arithmetic — the planner produces `P = ⌊N · log2_b⌋ + 64` and
`n = ⌈N / 14.181647462725477⌉ + 1`, and these are exactly the values
`compute_pi_impl` and `compute_pi_base_impl` pass to the evaluator
(`bsplit_chudnovsky 0 n`) and to the MPFR assembly (`assemble_pi P`). -/
theorem C4_planner_formulas (digits : ℕ) :
    (prec_bits_dec digits : ℤ) = ⌊(digits : ℚ) * 3.3219280948873626⌋ + 64 ∧
    (prec_bits_base digits 10 : ℤ) = ⌊(digits : ℚ) * 3.3219280948873626⌋ + 64 ∧
    (prec_bits_base digits 16 : ℤ) = ⌊(digits : ℚ) * 4⌋ + 64 ∧
    (n_terms digits : ℤ) = ⌈(digits : ℚ) / 14.181647462725477⌉ + 1 ∧
    compute_pi_impl digits =
      mpfr_to_fixed_decimal
        (assemble_pi (prec_bits_dec digits) (bsplit_chudnovsky 0 (n_terms digits))) digits ∧
    (∀ base : ℤ, base ≠ 16 → compute_pi_base_impl digits base =
      mpfr_to_fixed_decimal
        (assemble_pi (prec_bits_base digits base) (bsplit_chudnovsky 0 (n_terms digits))) digits) ∧
    compute_pi_base_impl digits 16 =
      mpfr_to_fixed_hex
        (assemble_pi (prec_bits_base digits 16) (bsplit_chudnovsky 0 (n_terms digits))) digits := by
  refine ⟨prec_bits_dec_eq_floor digits, ?_, ?_, n_terms_eq_ceil digits, rfl, ?_, ?_⟩
  · rw [show prec_bits_base digits 10 = prec_bits_dec digits from rfl]
    exact prec_bits_dec_eq_floor digits
  · rw [show prec_bits_base digits 16 = 4 * digits + 64 from rfl,
      show (digits : ℚ) * 4 = ((4 * digits : ℕ) : ℚ) by push_cast; ring,
      Int.floor_natCast]
    push_cast
    ring
  · intro base hb
    simp [compute_pi_base_impl, hb]
  · simp [compute_pi_base_impl]

/-- C4, witness for the amended theorem at `digits = 50`, `base = 7`. -/
theorem C4_planner_formulas_witness :
    ((7 : ℤ) ≠ 16) ∧
    compute_pi_base_impl 50 7 =
      mpfr_to_fixed_decimal
        (assemble_pi (prec_bits_base 50 7) (bsplit_chudnovsky 0 (n_terms 50))) 50 ∧
    (prec_bits_dec 50 : ℤ) = ⌊((50 : ℕ) : ℚ) * 3.3219280948873626⌋ + 64 :=
  ⟨by decide, (C4_planner_formulas 50).2.2.2.2.2.1 7 (by decide),
    (C4_planner_formulas 50).1⟩

/-- C5.  The evaluator leaf equals the term definition of the spec: at
`k = 0` it is `(1, 1, 13591409)`; at `k ≥ 1` it is
`P_k = (6k−5)(2k−1)(6k−1)`, `Q_k = k³ · 10939058860032000`, and
`T_k = P_k · (13591409 + 545140134·k)` negated exactly when `k` is odd,
with `P_k > 0` and `Q_k > 0`. -/
theorem C5_leaf_matches_term_definition :
    leaf 0 = ⟨1, 1, 13591409⟩ ∧
    ∀ k : ℕ, 1 ≤ k →
      leaf k = ⟨(6 * (k : ℤ) - 5) * (2 * (k : ℤ) - 1) * (6 * (k : ℤ) - 1),
        (k : ℤ) ^ 3 * 10939058860032000,
        (if k % 2 = 1 then -1 else 1) *
          ((6 * (k : ℤ) - 5) * (2 * (k : ℤ) - 1) * (6 * (k : ℤ) - 1) *
            (13591409 + 545140134 * (k : ℤ)))⟩ ∧
      0 < (leaf k).P ∧ 0 < (leaf k).Q := by
  refine ⟨by decide, fun k hk => ⟨?_, pLeaf_pos k, qLeaf_pos k⟩⟩
  have hC : C3_OVER_24 = 10939058860032000 := by decide
  simp only [leaf, if_neg (by omega : ¬ k = 0), hC, A, B]
  refine congrArg₂ (BSplitTriplet.mk _) (by ring) ?_
  by_cases hodd : k % 2 = 1
  · rw [if_pos hodd, if_pos hodd]
    ring
  · rw [if_neg hodd, if_neg hodd]
    ring

/-- C5, witness at `k = 2`. -/
theorem C5_leaf_witness :
    leaf 2 = ⟨(6 * ((2 : ℕ) : ℤ) - 5) * (2 * ((2 : ℕ) : ℤ) - 1) * (6 * ((2 : ℕ) : ℤ) - 1),
      ((2 : ℕ) : ℤ) ^ 3 * 10939058860032000,
      (if 2 % 2 = 1 then -1 else 1) *
        ((6 * ((2 : ℕ) : ℤ) - 5) * (2 * ((2 : ℕ) : ℤ) - 1) * (6 * ((2 : ℕ) : ℤ) - 1) *
          (13591409 + 545140134 * ((2 : ℕ) : ℤ)))⟩ ∧
    0 < (leaf 2).P ∧ 0 < (leaf 2).Q :=
  C5_leaf_matches_term_definition.2 2 (by decide)

/-- C6.  The combination `(P₁P₂, Q₁Q₂, T₁Q₂ + P₁T₂)` is associative and not
commutative. -/
theorem C6_merge_assoc_not_comm :
    (∀ x y z : BSplitTriplet,
      mergeTriplet (mergeTriplet x y) z = mergeTriplet x (mergeTriplet y z)) ∧
    ∃ x y : BSplitTriplet, mergeTriplet x y ≠ mergeTriplet y x := by
  constructor
  · intro x y z
    simp only [mergeTriplet, BSplitTriplet.mk.injEq]
    refine ⟨by ring, by ring, by ring⟩
  · exact ⟨⟨1, 1, 1⟩, ⟨2, 1, 0⟩, by decide⟩

/-- C7.  Every string `mpfr_to_fixed_decimal(v, N)` contains exactly one
`'.'`, has exactly `N` characters after it, and every character after the
`'.'` is a decimal digit.  (Proved for every `N`, hence in particular for
`N ≥ 1` as claimed; every value of the MPFR model is finite.) -/
theorem C7_fixed_decimal_format (v : MPFRFloat) (digits : ℕ) :
    (mpfr_to_fixed_decimal v digits).data.count '.' = 1 ∧
    ∃ pre suf : List Char,
      (mpfr_to_fixed_decimal v digits).data = pre ++ '.' :: suf ∧
      '.' ∉ pre ∧ suf.length = digits ∧ ∀ c ∈ suf, c.isDigit = true := by
  obtain ⟨pre, suf, he, hp, hl, hd⟩ := mpfr_to_fixed_decimal_shape v digits
  refine ⟨?_, pre, suf, he, hp, hl, hd⟩
  have h1 : pre.count '.' = 0 := List.count_eq_zero.mpr hp
  have h2 : suf.count '.' = 0 :=
    List.count_eq_zero.mpr fun hm => isDigit_ne_dot (hd _ hm) rfl
  rw [he, List.count_append, h1, List.count_cons, h2]
  simp

/-- C8.  Running the sequential evaluator over `[0, n)` with a non-null
progress sink initialised to `done = 0, total = n` invokes the tick exactly
once per leaf — `n` times in total, in depth-first left-to-right order — and
the `done` values passed are exactly `1, 2, …, n`: strictly increasing and
never exceeding `total`. -/
theorem C8_progress_ticks (n : ℕ) (hn : 1 ≤ n) :
    (bsplit_chudnovsky_prog 0 n ⟨n, 0, []⟩).2.ticks
        = (List.range n).map (fun i => (i + 1, n)) ∧
    (bsplit_chudnovsky_prog 0 n ⟨n, 0, []⟩).2.ticks.length = n ∧
    (∀ t ∈ (bsplit_chudnovsky_prog 0 n ⟨n, 0, []⟩).2.ticks, 1 ≤ t.1 ∧ t.1 ≤ t.2 ∧ t.2 = n) ∧
    List.Chain' (fun s t => s.1 < t.1) (bsplit_chudnovsky_prog 0 n ⟨n, 0, []⟩).2.ticks ∧
    (bsplit_chudnovsky_prog 0 n ⟨n, 0, []⟩).1 = bsplit_chudnovsky 0 n := by
  have h := bsplit_chudnovsky_prog_spec n hn
  rw [h]
  refine ⟨rfl, by simp, ?_, ?_, rfl⟩
  · intro t ht
    simp only [List.mem_map, List.mem_range] at ht
    obtain ⟨i, hi, rfl⟩ := ht
    exact ⟨by omega, by simpa using hi, rfl⟩
  · rw [List.chain'_map]
    obtain ⟨m, rfl⟩ : ∃ m, n = m + 1 := ⟨n - 1, by omega⟩
    exact (List.chain'_range_succ _ m).mpr fun k _ => by simp

/-- C8, witness at `n = 3`. -/
theorem C8_progress_ticks_witness :
    (1 ≤ 3) ∧
    ((bsplit_chudnovsky_prog 0 3 ⟨3, 0, []⟩).2.ticks
        = (List.range 3).map (fun i => (i + 1, 3)) ∧
     (bsplit_chudnovsky_prog 0 3 ⟨3, 0, []⟩).2.ticks.length = 3 ∧
     (∀ t ∈ (bsplit_chudnovsky_prog 0 3 ⟨3, 0, []⟩).2.ticks, 1 ≤ t.1 ∧ t.1 ≤ t.2 ∧ t.2 = 3) ∧
     List.Chain' (fun s t => s.1 < t.1) (bsplit_chudnovsky_prog 0 3 ⟨3, 0, []⟩).2.ticks ∧
     (bsplit_chudnovsky_prog 0 3 ⟨3, 0, []⟩).1 = bsplit_chudnovsky 0 3) :=
  ⟨by decide, C8_progress_ticks 3 (by decide)⟩

/-- C9.  `self_test(N, message)` returns `true` exactly when `compute_pi N`
is byte-for-byte equal to the fixed-point formatting of the independent MPFR
reference π at precision `⌊N · 3.3219280948873626 + 64⌋`; when it returns
`false`, the message names the index of the first character at which the two
strings differ (the scan index agrees on every earlier character and
disagrees — as a character, or because one string ends — at that index). -/
theorem C9_self_test_is_string_comparison (N : ℕ) :
    ((self_test N).1 = true ↔
      compute_pi N = mpfr_to_fixed_decimal (mpfr_const_pi (prec_bits_dec N)) N) ∧
    ((self_test N).1 = true ∧ (self_test N).2 = "OK - outputs match exactly" ∨
     (self_test N).1 = false ∧
       (self_test N).2 = "Mismatch at char index " ++
         toString (mismatchIdx (compute_pi N).data
           (mpfr_to_fixed_decimal (mpfr_const_pi (prec_bits_dec N)) N).data) ∧
       (compute_pi N).data.take (mismatchIdx (compute_pi N).data
           (mpfr_to_fixed_decimal (mpfr_const_pi (prec_bits_dec N)) N).data)
         = (mpfr_to_fixed_decimal (mpfr_const_pi (prec_bits_dec N)) N).data.take
             (mismatchIdx (compute_pi N).data
               (mpfr_to_fixed_decimal (mpfr_const_pi (prec_bits_dec N)) N).data) ∧
       (compute_pi N).data.get? (mismatchIdx (compute_pi N).data
           (mpfr_to_fixed_decimal (mpfr_const_pi (prec_bits_dec N)) N).data)
         ≠ (mpfr_to_fixed_decimal (mpfr_const_pi (prec_bits_dec N)) N).data.get?
             (mismatchIdx (compute_pi N).data
               (mpfr_to_fixed_decimal (mpfr_const_pi (prec_bits_dec N)) N).data)) := by
  by_cases h : compute_pi N = mpfr_to_fixed_decimal (mpfr_const_pi (prec_bits_dec N)) N
  · refine ⟨by simp [self_test, h], Or.inl ⟨by simp [self_test, h], by simp [self_test, h]⟩⟩
  · have hdata : (compute_pi N).data
        ≠ (mpfr_to_fixed_decimal (mpfr_const_pi (prec_bits_dec N)) N).data :=
      fun hd => h (String.ext hd)
    obtain ⟨ht, hg⟩ := mismatchIdx_spec _ _ hdata
    exact ⟨by simp [self_test, h],
      Or.inr ⟨by simp [self_test, h], by simp [self_test, h], ht, hg⟩⟩

/-- C10.  For every `n ≥ 1` the root triplet of `bsplit_chudnovsky(0, n)`
has `Q > 0` and `T ≠ 0` (indeed `T > 0`: the alternating tail is dominated
by the leading term), so the assembled divisor `tf = |T|` is strictly
positive; consequently, for every digit count and base the pipeline can
produce, the dyadic `tf` handed to the final division is nonzero and the
division-by-zero branch of `mpfr_div` is unreachable. -/
theorem C10_division_by_zero_unreachable (n : ℕ) (hn : 1 ≤ n) :
    0 < (bsplit_chudnovsky 0 n).Q ∧
    (bsplit_chudnovsky 0 n).T ≠ 0 ∧
    0 < t_abs (bsplit_chudnovsky 0 n) ∧
    ∀ N : ℕ, ∀ base : ℤ,
      (mpfr_set_z (prec_bits_base N base) (t_abs (bsplit_chudnovsky 0 (n_terms N)))).num ≠ 0 := by
  have habs : ∀ m : ℕ, 1 ≤ m → 0 < t_abs (bsplit_chudnovsky 0 m) := by
    intro m hm
    have hT := bsplit_T_pos m hm
    simp only [t_abs]
    rw [if_neg (by omega)]
    exact hT
  refine ⟨bsplit_Q_pos n hn, ne_of_gt (bsplit_T_pos n hn), habs n hn, ?_⟩
  intro N base
  apply mpfr_set_z_ne_zero
  · simp only [prec_bits_base, prec_bits_dec]
    split <;> omega
  · exact ne_of_gt (habs (n_terms N) (Nat.le_add_left 1 _))

/-- C10, witness at `n = 2`. -/
theorem C10_division_by_zero_unreachable_witness :
    (1 ≤ 2) ∧
    (0 < (bsplit_chudnovsky 0 2).Q ∧
     (bsplit_chudnovsky 0 2).T ≠ 0 ∧
     0 < t_abs (bsplit_chudnovsky 0 2) ∧
     ∀ N : ℕ, ∀ base : ℤ,
       (mpfr_set_z (prec_bits_base N base) (t_abs (bsplit_chudnovsky 0 (n_terms N)))).num ≠ 0) :=
  ⟨by decide, C10_division_by_zero_unreachable 2 (by decide)⟩

end PiRacer
